import Mathlib

/-!
Verification development for the hubcaps client library
(`src/labels/mod.rs` and `src/search/mod.rs`).

The Rust source is shallowly embedded: pure path/query construction becomes
Lean functions on `String`, the HTTP layer becomes a `Request` record, and
the pagination engine becomes an explicit run function over a list of page
fetch outcomes.  `HashMap` iteration order is unspecified in Rust, so every
function that iterates over the options map is parameterized by the
iteration order `iter`, constrained to be a permutation of the map's
entries.
-/

namespace Hubcaps

/-- HTTP methods used by the accessors. -/
inductive Method
  | GET
  | POST
  | PATCH
  | DELETE
deriving DecidableEq, Repr

/-- `LabelOptions { name, color }` from `src/labels/mod.rs`. -/
structure LabelOptions where
  name : String
  color : String
deriving DecidableEq, Repr

/-- An HTTP request as issued by an accessor: the verb, the
resource-root-relative path, and the (decoded) JSON body when present.
The body of label requests is the serialization of a `LabelOptions`
value (`json!(lab)`); we keep the decoded value. -/
structure Request where
  method : Method
  path : String
  body : Option LabelOptions
deriving DecidableEq, Repr

/-- The `Labels` accessor: scope bound to `owner` and `repo`
(`src/labels/mod.rs`, `struct Labels`). -/
structure Labels where
  owner : String
  repo : String
deriving DecidableEq, Repr

/-- `Labels::path`: `format!("/repos/{}/{}/labels{}", self.owner, self.repo, more)`. -/
def Labels.path (l : Labels) (more : String) : String :=
  "/repos/" ++ l.owner ++ "/" ++ l.repo ++ "/labels" ++ more

/-- `Labels::create`: POST to `path("")` with body `json!(lab)`. -/
def Labels.create (l : Labels) (lab : LabelOptions) : Request :=
  { method := Method.POST, path := l.path "", body := some lab }

/-- `Labels::update`: PATCH to `path(&format!("/{}", prevname))` with body `json!(lab)`. -/
def Labels.update (l : Labels) (prevname : String) (lab : LabelOptions) : Request :=
  { method := Method.PATCH, path := l.path ("/" ++ prevname), body := some lab }

/-- `Labels::delete`: DELETE to `path(&format!("/{}", name))`, no body. -/
def Labels.delete (l : Labels) (name : String) : Request :=
  { method := Method.DELETE, path := l.path ("/" ++ name), body := none }

/-- `Labels::list`: GET to `path("")`, no body. -/
def Labels.list (l : Labels) : Request :=
  { method := Method.GET, path := l.path "", body := none }

/-! ## The `url::form_urlencoded` serializer (external `url` crate)

`SearchIssuesOptions::serialize` and `SearchIssues::search_uri` use
`form_urlencoded::Serializer`, whose encoder is the WHATWG
`application/x-www-form-urlencoded` byte serializer: a byte `0x20` becomes
`+`; bytes in `[0-9A-Za-z]` and `*-._` pass through; every other byte
becomes `%XX` with uppercase hex digits.  We embed it over the UTF-8
bytes of the string. -/

/-- Uppercase hexadecimal digit for `n < 16`. -/
def hexDigit (n : Nat) : Char :=
  if n < 10 then Char.ofNat (48 + n) else Char.ofNat (55 + n)

/-- Bytes the WHATWG form-urlencoded serializer leaves unchanged:
`*`, `-`, `.`, `0-9`, `A-Z`, `_`, `a-z`. -/
def byteSerializedUnchanged (b : Nat) : Bool :=
  b == 0x2A || b == 0x2D || b == 0x2E ||
  (0x30 ≤ b && b ≤ 0x39) || (0x41 ≤ b && b ≤ 0x5A) ||
  b == 0x5F || (0x61 ≤ b && b ≤ 0x7A)

/-- Serialize one byte per the WHATWG form-urlencoded serializer. -/
def serializeByte (b : Nat) : List Char :=
  if b == 0x20 then ['+']
  else if byteSerializedUnchanged b then [Char.ofNat b]
  else ['%', hexDigit (b / 16 % 16), hexDigit (b % 16)]

/-- UTF-8 encoding of one scalar value, as byte values. -/
def utf8Bytes (c : Char) : List Nat :=
  let n := c.toNat
  if n < 0x80 then [n]
  else if n < 0x800 then [0xC0 + n / 64, 0x80 + n % 64]
  else if n < 0x10000 then [0xE0 + n / 4096, 0x80 + n / 64 % 64, 0x80 + n % 64]
  else [0xF0 + n / 262144, 0x80 + n / 4096 % 64, 0x80 + n / 64 % 64, 0x80 + n % 64]

/-- `form_urlencoded::byte_serialize` applied to the UTF-8 bytes of `s`. -/
def formUrlEncode (s : String) : String :=
  ⟨(s.data.flatMap utf8Bytes).flatMap serializeByte⟩

/-- `Serializer::append_pair` on a `String` target with `start_position = 0`:
a `&` separator is inserted exactly when the target is non-empty, then the
percent-encoded `name=value` pair is appended. -/
def append_pair (target : String) (k v : String) : String :=
  (if target.isEmpty then target else target ++ "&")
    ++ formUrlEncode k ++ "=" ++ formUrlEncode v

/-! ## Search options (`src/search/mod.rs`) -/

/-- `IssuesSort` from `src/search/mod.rs`. -/
inductive IssuesSort
  | Created
  | Updated
  | Comments
deriving DecidableEq, Repr

/-- `impl fmt::Display for IssuesSort` (`src/search/mod.rs`, lines 30-38). -/
def IssuesSort.display : IssuesSort → String
  | IssuesSort.Comments => "comments"
  | IssuesSort.Created => "created"
  | IssuesSort.Updated => "updated"

/-- Modelled from the spec: `SortDirection` lives in the crate root, which is
not among the provided sources; only its `Display` tokens are observable
here ("mapping a sort enum to its canonical string token", with the pinned
test expecting `order=desc`). -/
inductive SortDirection
  | Asc
  | Desc
deriving DecidableEq, Repr

/-- Modelled from the spec: canonical string tokens of `SortDirection`. -/
def SortDirection.display : SortDirection → String
  | SortDirection.Asc => "asc"
  | SortDirection.Desc => "desc"

/-- One call on `SearchIssuesOptionsBuilder`
(`per_page` / `sort` / `order`, `src/search/mod.rs` lines 170-183). -/
inductive BuilderCall
  | per_page (n : Nat)
  | sort (s : IssuesSort)
  | order (d : SortDirection)
deriving DecidableEq, Repr

/-- The `&'static str` key a builder call inserts into `params`. -/
def BuilderCall.key : BuilderCall → String
  | BuilderCall.per_page _ => "per_page"
  | BuilderCall.sort _ => "sort"
  | BuilderCall.order _ => "order"

/-- The `String` value a builder call inserts into `params`
(`n.to_string()`, `sort.to_string()`, `direction.to_string()`). -/
def BuilderCall.val : BuilderCall → String
  | BuilderCall.per_page n => toString n
  | BuilderCall.sort s => s.display
  | BuilderCall.order d => d.display

/-- `HashMap::insert` on the contents of `params`, viewed as an association
list with pairwise-distinct keys: an existing binding for `k` is replaced,
otherwise the binding is appended.  (Iteration order of the Rust map is
unspecified; only the set of entries is meaningful.) -/
def insertParam : List (String × String) → String → String → List (String × String)
  | [], k, v => [(k, v)]
  | (k', v') :: rest, k, v =>
      if k' = k then (k, v) :: rest else (k', v') :: insertParam rest k v

/-- The contents of `SearchIssuesOptions.params` after a sequence of builder
calls, starting from `Default::default()` (the empty map). -/
def buildParams (calls : List BuilderCall) : List (String × String) :=
  calls.foldl (fun m c => insertParam m c.key c.val) []

/-- The value bound to key `k` by the last builder call that set `k`, if
any: calls later in the list take precedence. -/
def lastSet : List BuilderCall → String → Option String
  | [], _ => none
  | c :: rest, k =>
      match lastSet rest k with
      | some v => some v
      | none => if c.key = k then some c.val else none

/-- `SearchIssuesOptions::serialize` (`src/search/mod.rs` lines 150-159):
`None` when `params` is empty, otherwise the `form_urlencoded` serialization
of the pairs.  `extend_pairs(&self.params)` walks the `HashMap` in its
unspecified iteration order, so the function takes the entries in that
iteration order `iter` (a permutation of the map's contents). -/
def serialize (iter : List (String × String)) : Option String :=
  if iter.isEmpty then none
  else some (iter.foldl (fun acc kv => append_pair acc kv.1 kv.2) "")

/-- `SearchIssues::search_uri` (`src/search/mod.rs` lines 103-114):
seed a serializer with `options.serialize().unwrap_or(String::new())`,
append the pair `("q", q)`, and join `"/search/issues"` with the query
using `"?"`.  As with `serialize`, `iter` is the options map's entries in
the `HashMap` iteration order. -/
def search_uri (iter : List (String × String)) (q : String) : String :=
  let query_options := (serialize iter).getD ""
  let query := append_pair query_options "q" q
  "/search/issues" ++ "?" ++ query

/-! ## Search results and pagination -/

/-- `SearchResult<D>` (`src/search/mod.rs` lines 190-195). -/
structure SearchResult (D : Type) where
  total_count : Nat
  incomplete_results : Bool
  items : List D
deriving DecidableEq, Repr

/-- `fn items<D>(result: SearchResult<D>) -> Vec<D>` (`src/search/mod.rs`
lines 50-55): the extraction function handed to `unfold`. -/
def items {D : Type} (result : SearchResult D) : List D :=
  result.items

/-- One element of the stream surfaced to the caller: either a decoded item
or the single terminal failure signal. -/
inductive StreamElem (E I : Type)
  | item (i : I)
  | failure (e : E)
deriving DecidableEq, Repr

/-- Modelled from the spec: the pagination engine `unfold` lives in the crate
root, which is not among the provided sources; `Search::iter`
(`src/search/mod.rs` lines 73-78) calls
`unfold(self.github.clone(), self.github.get_pages(url), items)`.  Per the
spec, the engine turns the Page Source's ordered sequence of fetch
outcomes into one lazy item sequence: each successful page's extracted
items are yielded in order, an exhausted source ends the stream, and a
failed fetch surfaces exactly one terminal failure element after which no
further page is fetched.  `pages` is the source's sequence of fetch
outcomes; the result pairs the full sequence of surfaced elements with the
indices of the pages actually fetched (starting at `start`), in fetch
order. -/
def runUnfold {D I E : Type} (extract : SearchResult D → List I) :
    List (Except E (SearchResult D)) → Nat → List (StreamElem E I) × List Nat
  | [], _ => ([], [])
  | Except.ok p :: rest, i =>
      let r := runUnfold extract rest (i + 1)
      ((extract p).map StreamElem.item ++ r.1, i :: r.2)
  | Except.error e :: _, i => ([StreamElem.failure e], [i])

/-! ## `IssuesItem::repo_tuple` -/

/-- Rust's `str::split("/")` on a character list: the (possibly empty)
substrings between occurrences of `/`.  `""` splits to `[""]`, `"/a"` to
`["", "a"]`, `"a//b"` to `["a", "", "b"]`. -/
def splitSlash : List Char → List (List Char)
  | [] => [[]]
  | c :: rest =>
      if c = '/' then [] :: splitSlash rest
      else
        match splitSlash rest with
        | [] => [[c]]
        | s :: ss => (c :: s) :: ss

/-- `parsed.path().split("/").collect::<Vec<_>>()` as a list of strings. -/
def splitPath (p : String) : List String :=
  (splitSlash p.data).map (fun l => ⟨l⟩)

/-- Modelled from the spec (external collaborator): `url::Url::parse` comes
from the `url` crate, outside this repository.  `repo_tuple` only observes
whether parsing succeeded and, on success, the parsed URL's path, so the
parse step is abstracted as `Option String`: `none` when
`repository_url` is not a valid URL (the `unwrap()` panics), `some p` with
`p` the parsed path otherwise.  Indexing `path[0]` / `path[1]` out of
bounds likewise panics, modelled as `none`. -/
def repo_tuple (parsedPath : Option String) : Option (String × String) :=
  match parsedPath with
  | none => none
  | some p =>
      let path := splitPath p
      if h : 1 < path.length then
        some (path.get ⟨0, Nat.lt_of_le_of_lt (Nat.zero_le 1) h⟩, path.get ⟨1, h⟩)
      else
        none

/-! ## Helper lemmas -/

/-- Two strings are equal when their character lists are. -/
theorem string_eq_of_data (s t : String) (h : s.data = t.data) : s = t :=
  String.ext h

theorem empty_isEmpty : ("" : String).isEmpty = true := rfl

/-- The percent-encoded `key=value` fragment of one pair. -/
def pairStr (p : String × String) : String :=
  formUrlEncode p.1 ++ "=" ++ formUrlEncode p.2

/-- Join fragments with `&` separators, with no leading or trailing `&`. -/
def joinAmp : List String → String
  | [] => ""
  | [p] => p
  | p :: q :: rest => p ++ "&" ++ joinAmp (q :: rest)

theorem pairStr_ne_empty (p : String × String) : pairStr p ≠ "" := by
  intro h
  have := congrArg String.data h
  simp [pairStr, String.data_append] at this

theorem isEmpty_false_of_ne {s : String} (h : s ≠ "") : s.isEmpty = false := by
  rcases hb : s.isEmpty with _ | _
  · rfl
  · exact absurd ((String.isEmpty_iff s).mp hb) h

theorem append_pair_of_ne {t : String} (h : t ≠ "") (k v : String) :
    append_pair t k v = t ++ "&" ++ pairStr (k, v) := by
  apply string_eq_of_data
  simp [append_pair, pairStr, isEmpty_false_of_ne h, String.data_append]

theorem append_pair_empty (k v : String) : append_pair "" k v = pairStr (k, v) := by
  apply string_eq_of_data
  simp [append_pair, pairStr, empty_isEmpty, String.data_append]

theorem append_amp_ne_empty (a b : String) : a ++ "&" ++ b ≠ "" := by
  intro h
  have := congrArg String.data h
  simp [String.data_append] at this

theorem joinAmp_amp_cons (a b : String) (l : List String) :
    joinAmp ((a ++ "&" ++ b) :: l) = a ++ "&" ++ joinAmp (b :: l) := by
  cases l with
  | nil => rfl
  | cons c t =>
      apply string_eq_of_data
      simp [joinAmp, String.data_append]

theorem foldl_append_pair (l : List (String × String)) (acc : String) (h : acc ≠ "") :
    l.foldl (fun a kv => append_pair a kv.1 kv.2) acc = joinAmp (acc :: l.map pairStr) := by
  induction l generalizing acc with
  | nil => rfl
  | cons p rest ih =>
      have hstep : append_pair acc p.1 p.2 = acc ++ "&" ++ pairStr p :=
        append_pair_of_ne h p.1 p.2
      calc (p :: rest).foldl (fun a kv => append_pair a kv.1 kv.2) acc
          = rest.foldl (fun a kv => append_pair a kv.1 kv.2) (acc ++ "&" ++ pairStr p) := by
            rw [List.foldl_cons, hstep]
        _ = joinAmp ((acc ++ "&" ++ pairStr p) :: rest.map pairStr) :=
            ih _ (append_amp_ne_empty _ _)
        _ = joinAmp (acc :: (p :: rest).map pairStr) := by
            rw [List.map_cons, joinAmp_amp_cons]
            rfl

/-- Structure of `serialize` on a non-empty options map: the `&`-join of
the percent-encoded `key=value` fragments, in iteration order. -/
theorem serialize_eq_joinAmp (iter : List (String × String)) (h : iter ≠ []) :
    serialize iter = some (joinAmp (iter.map pairStr)) := by
  obtain ⟨p, rest, rfl⟩ : ∃ p rest, iter = p :: rest := by
    cases iter with
    | nil => exact absurd rfl h
    | cons p rest => exact ⟨p, rest, rfl⟩
  show (if (p :: rest).isEmpty then none else some _) = _
  rw [if_neg (by simp)]
  congr 1
  rw [List.foldl_cons, append_pair_empty,
    foldl_append_pair rest (pairStr p) (pairStr_ne_empty p), List.map_cons]

/-- C1 counterexample: `serialize` follows the `HashMap`'s unspecified
iteration order, so the same two-entry options map — reached by the builder
calls `per_page(50)` then `sort(Comments)` — serializes to different strings
under its two possible iteration orders. -/
theorem serialize_order_dependent :
    (([("per_page", "50"), ("sort", "comments")] : List (String × String)).Perm
      (buildParams [BuilderCall.per_page 50, BuilderCall.sort IssuesSort.Comments])) ∧
    (([("sort", "comments"), ("per_page", "50")] : List (String × String)).Perm
      (buildParams [BuilderCall.per_page 50, BuilderCall.sort IssuesSort.Comments])) ∧
    serialize [("per_page", "50"), ("sort", "comments")] ≠
      serialize [("sort", "comments"), ("per_page", "50")] := by
  refine ⟨by decide, by decide, by decide⟩

/-- C1 (amended): serialization is deterministic only up to fragment order —
for any two iteration orders of the same options map, both serializations
are `&`-joins of the same multiset of percent-encoded `key=value`
fragments (and both are absent for the empty map); the fragment order
itself follows the map's unspecified iteration order. -/
theorem serialize_deterministic_up_to_fragments (it1 it2 : List (String × String))
    (h : it1.Perm it2) :
    (serialize it1 = none ∧ serialize it2 = none) ∨
    ∃ parts1 parts2 : List String, parts1.Perm parts2 ∧
      serialize it1 = some (joinAmp parts1) ∧ serialize it2 = some (joinAmp parts2) := by
  cases it1 with
  | nil =>
      have h2 : it2 = [] := (h.nil_eq).symm
      subst h2
      exact Or.inl ⟨rfl, rfl⟩
  | cons p rest =>
      have h2 : it2 ≠ [] := by
        intro hn
        subst hn
        exact absurd h.eq_nil (by simp)
      exact Or.inr ⟨(p :: rest).map pairStr, it2.map pairStr, h.map pairStr,
        serialize_eq_joinAmp _ (by simp), serialize_eq_joinAmp _ h2⟩

/-- Witness for C1's amended theorem at the two concrete iteration orders of
the map `{per_page ↦ 50, sort ↦ comments}`. -/
theorem serialize_deterministic_up_to_fragments_witness :
    (([("per_page", "50"), ("sort", "comments")] : List (String × String)).Perm
      [("sort", "comments"), ("per_page", "50")]) ∧
    ((serialize [("per_page", "50"), ("sort", "comments")] = none ∧
        serialize [("sort", "comments"), ("per_page", "50")] = none) ∨
      ∃ parts1 parts2 : List String, parts1.Perm parts2 ∧
        serialize [("per_page", "50"), ("sort", "comments")] = some (joinAmp parts1) ∧
        serialize [("sort", "comments"), ("per_page", "50")] = some (joinAmp parts2)) :=
  ⟨List.Perm.swap _ _ _,
   serialize_deterministic_up_to_fragments _ _ (List.Perm.swap _ _ _)⟩

/-- C3 counterexample: with zero options set, `serialize` does return `none`,
but the search URL still receives a query string — `search_uri` always
appends `?q=…`, so the final URL is not free of a query component. -/
theorem serialize_none_but_url_has_query :
    serialize ([] : List (String × String)) = none ∧
    search_uri [] "" = "/search/issues?q=" ∧
    ("?".data <:+: (search_uri [] "").data) := by
  refine ⟨rfl, by decide, by decide⟩

/-- C3 (amended): with zero options set, `serialize()` returns `none` (absent,
not the empty string) and the options contribute no text to the final URL;
the search URL nonetheless always carries the `?q=…` query component that
`search_uri` appends for the free-text query. -/
theorem serialize_empty_options (q : String) :
    serialize ([] : List (String × String)) = none ∧
    search_uri [] q = "/search/issues?q=" ++ formUrlEncode q := by
  refine ⟨rfl, ?_⟩
  apply string_eq_of_data
  have hq : (formUrlEncode "q").data = ['q'] := rfl
  simp [search_uri, serialize, append_pair, empty_isEmpty, hq, String.data_append]

/-! ### Builder / last-write-wins lemmas -/

theorem lastSet_cons (c : BuilderCall) (rest : List BuilderCall) (k : String) :
    lastSet (c :: rest) k =
      (lastSet rest k).or (if c.key = k then some c.val else none) := by
  cases h : lastSet rest k <;> simp [lastSet, h]

theorem insertParam_ne_nil (m : List (String × String)) (k v : String) :
    insertParam m k v ≠ [] := by
  cases m with
  | nil => simp [insertParam]
  | cons p rest =>
      obtain ⟨k', v'⟩ := p
      by_cases h : k' = k <;> simp [insertParam, h]

theorem keys_insertParam (m : List (String × String)) (k v : String) :
    (insertParam m k v).map Prod.fst =
      if k ∈ m.map Prod.fst then m.map Prod.fst else m.map Prod.fst ++ [k] := by
  induction m with
  | nil => simp [insertParam]
  | cons p rest ih =>
      obtain ⟨k', v'⟩ := p
      by_cases h : k' = k
      · subst h
        simp [insertParam]
      · simp only [insertParam, if_neg h, List.map_cons, ih]
        by_cases h2 : k ∈ rest.map Prod.fst <;>
          simp [h2, Ne.symm h]

theorem nodupKeys_insertParam (m : List (String × String))
    (hm : (m.map Prod.fst).Nodup) (k v : String) :
    ((insertParam m k v).map Prod.fst).Nodup := by
  rw [keys_insertParam]
  by_cases h : k ∈ m.map Prod.fst
  · simpa [h] using hm
  · simp only [if_neg h]
    rw [List.nodup_append]
    refine ⟨hm, List.nodup_singleton k, ?_⟩
    intro a ha hb
    rw [List.mem_singleton] at hb
    subst hb
    exact h ha

theorem mem_insertParam_self (m : List (String × String))
    (hm : (m.map Prod.fst).Nodup) (k v v' : String) :
    ((k, v') ∈ insertParam m k v) ↔ v' = v := by
  induction m with
  | nil => simp [insertParam, Prod.ext_iff]
  | cons p rest ih =>
      obtain ⟨k1, v1⟩ := p
      rw [List.map_cons, List.nodup_cons] at hm
      by_cases h : k1 = k
      · subst h
        have hk : (k1, v') ∉ rest := fun hmem =>
          hm.1 (List.mem_map.2 ⟨(k1, v'), hmem, rfl⟩)
        simp [insertParam, Prod.ext_iff, hk]
      · simp [insertParam, h, Prod.ext_iff, Ne.symm h, ih hm.2]

theorem mem_insertParam_ne (m : List (String × String)) {k' k : String}
    (h : k' ≠ k) (v v' : String) :
    ((k', v') ∈ insertParam m k v) ↔ (k', v') ∈ m := by
  induction m with
  | nil => simp [insertParam, Prod.ext_iff, h]
  | cons p rest ih =>
      obtain ⟨k1, v1⟩ := p
      by_cases hk : k1 = k
      · subst hk
        simp [insertParam, Prod.ext_iff, h]
      · simp [insertParam, hk, ih]

theorem nodupKeys_foldl_insert (calls : List BuilderCall) (m : List (String × String))
    (hm : (m.map Prod.fst).Nodup) :
    ((calls.foldl (fun m c => insertParam m c.key c.val) m).map Prod.fst).Nodup := by
  induction calls generalizing m with
  | nil => exact hm
  | cons c rest ih =>
      rw [List.foldl_cons]
      exact ih _ (nodupKeys_insertParam m hm c.key c.val)

theorem foldl_insert_ne_nil (calls : List BuilderCall) (m : List (String × String))
    (hm : m ≠ []) :
    calls.foldl (fun m c => insertParam m c.key c.val) m ≠ [] := by
  induction calls generalizing m with
  | nil => exact hm
  | cons c rest ih =>
      rw [List.foldl_cons]
      exact ih _ (insertParam_ne_nil m c.key c.val)

/-- Membership in the folded options map: a pair survives exactly when it is
the last write to its key, or its key was never written and it was already
in the seed map. -/
theorem mem_foldl_insert (calls : List BuilderCall) (m : List (String × String))
    (hm : (m.map Prod.fst).Nodup) (k v : String) :
    ((k, v) ∈ calls.foldl (fun m c => insertParam m c.key c.val) m) ↔
      (lastSet calls k = some v ∨ (lastSet calls k = none ∧ (k, v) ∈ m)) := by
  induction calls generalizing m with
  | nil => simp [lastSet]
  | cons c rest ih =>
      rw [List.foldl_cons, ih _ (nodupKeys_insertParam m hm c.key c.val), lastSet_cons]
      cases hr : lastSet rest k with
      | some w => simp
      | none =>
          by_cases hk : c.key = k
          · subst hk
            simp [mem_insertParam_self m hm, eq_comm]
          · simp [hk, mem_insertParam_ne m (Ne.symm hk)]

theorem joinAmp_pairs_ne_empty (l : List (String × String)) (h : l ≠ []) :
    joinAmp (l.map pairStr) ≠ "" := by
  cases l with
  | nil => exact absurd rfl h
  | cons p t =>
      cases t with
      | nil => simpa [joinAmp] using pairStr_ne_empty p
      | cons q t2 => exact append_amp_ne_empty _ _

/-- C2: for every options value built by at least one `per_page`/`sort`/`order`
call, `serialize()` returns a non-empty percent-encoded `key=value&…` string
(under every iteration order of the map) in which every set key appears
exactly once, bound to the value of the last call that set it. -/
theorem serialize_nonempty_unique_last_write
    (calls : List BuilderCall) (hc : calls ≠ [])
    (iter : List (String × String)) (hi : iter.Perm (buildParams calls)) :
    ∃ s, serialize iter = some s ∧ s ≠ "" ∧ s = joinAmp (iter.map pairStr) ∧
      (iter.map Prod.fst).Nodup ∧
      ∀ k v, ((k, v) ∈ iter ↔ lastSet calls k = some v) := by
  have hb : buildParams calls ≠ [] := by
    cases calls with
    | nil => exact absurd rfl hc
    | cons c rest =>
        show (c :: rest).foldl (fun m c => insertParam m c.key c.val) [] ≠ []
        rw [List.foldl_cons]
        exact foldl_insert_ne_nil rest _ (insertParam_ne_nil [] c.key c.val)
  have hiter : iter ≠ [] := by
    intro hn
    subst hn
    exact hb hi.nil_eq.symm
  refine ⟨joinAmp (iter.map pairStr), serialize_eq_joinAmp iter hiter,
    joinAmp_pairs_ne_empty iter hiter, rfl, ?_, ?_⟩
  · exact ((hi.map Prod.fst).nodup_iff).mpr (nodupKeys_foldl_insert calls [] (by simp))
  · intro k v
    rw [hi.mem_iff]
    have h2 := mem_foldl_insert calls [] (by simp) k v
    simp only [List.not_mem_nil, and_false, or_false] at h2
    exact h2

/-- Witness for C2: the single builder call `per_page(50)` and the single
possible iteration order of the resulting one-entry map. -/
theorem serialize_nonempty_unique_last_write_witness :
    (([BuilderCall.per_page 50] : List BuilderCall) ≠ []) ∧
    (([("per_page", "50")] : List (String × String)).Perm
      (buildParams [BuilderCall.per_page 50])) ∧
    ∃ s, serialize [("per_page", "50")] = some s ∧ s ≠ "" ∧
      s = joinAmp ([("per_page", "50")].map pairStr) ∧
      (([("per_page", "50")] : List (String × String)).map Prod.fst).Nodup ∧
      ∀ k v, ((k, v) ∈ ([("per_page", "50")] : List (String × String)) ↔
        lastSet [BuilderCall.per_page 50] k = some v) :=
  ⟨by decide, by decide,
   serialize_nonempty_unique_last_write _ (by decide) _ (by decide)⟩

/-! ### Substring structure of `search_uri` -/

theorem mem_joinAmp_infix (l : List String) (x : String) (hx : x ∈ l) :
    x.data <:+: (joinAmp l).data := by
  induction l with
  | nil => cases hx
  | cons p t ih =>
      cases t with
      | nil =>
          rw [List.mem_singleton] at hx
          subst hx
          exact List.infix_refl _
      | cons q t2 =>
          rcases List.mem_cons.mp hx with h | h
          · subst h
            show x.data <:+: (x ++ "&" ++ joinAmp (q :: t2)).data
            rw [String.data_append, String.data_append, List.append_assoc]
            exact (List.prefix_append _ _).isInfix
          · have h2 := ih h
            show x.data <:+: (p ++ "&" ++ joinAmp (q :: t2)).data
            rw [String.data_append, String.data_append]
            exact h2.trans (List.suffix_append _ _).isInfix

theorem pairStr_q (q : String) : pairStr ("q", q) = "q=" ++ formUrlEncode q := by
  apply string_eq_of_data
  have h1 : (formUrlEncode "q").data = ['q'] := rfl
  have h2 : ("q=" : String).data = ['q', '='] := rfl
  have h3 : ("=" : String).data = ['='] := rfl
  simp [pairStr, String.data_append, h1, h2, h3]

/-- `search_uri` is the fixed search path, a literal `?`, and the query
produced by appending the `q` pair to the serialized options. -/
theorem search_uri_structure (iter : List (String × String)) (q : String) :
    search_uri iter q =
      "/search/issues?" ++ append_pair ((serialize iter).getD "") "q" q := by
  apply string_eq_of_data
  have h : ("/search/issues?" : String).data =
      ("/search/issues" : String).data ++ ("?" : String).data := rfl
  simp [search_uri, String.data_append, h]

/-- The encoded free-text query pair is always a suffix of the search URL. -/
theorem q_pair_suffix_search_uri (iter : List (String × String)) (q : String) :
    ("q=" ++ formUrlEncode q).data <:+ (search_uri iter q).data := by
  rw [search_uri_structure, String.data_append]
  by_cases h : ((serialize iter).getD "") = ""
  · rw [h, append_pair_empty, pairStr_q]
    exact (List.suffix_append _ _)
  · rw [append_pair_of_ne h, pairStr_q]
    simp only [String.data_append, List.append_assoc]
    exact (List.suffix_append _ _).trans
      ((List.suffix_append _ _).trans (List.suffix_append _ _))

/-- Every pair of the options map contributes its encoded `key=value`
fragment as a substring of the search URL. -/
theorem pair_infix_search_uri (iter : List (String × String)) (q : String)
    (p : String × String) (hp : p ∈ iter) :
    (pairStr p).data <:+: (search_uri iter q).data := by
  have hne : iter ≠ [] := List.ne_nil_of_mem hp
  have hopts : (serialize iter).getD "" = joinAmp (iter.map pairStr) := by
    rw [serialize_eq_joinAmp iter hne]
    rfl
  have hmem := mem_joinAmp_infix (iter.map pairStr) (pairStr p)
    (List.mem_map_of_mem pairStr hp)
  rw [search_uri_structure, String.data_append, hopts]
  by_cases h : joinAmp (iter.map pairStr) = ""
  · exact absurd h (joinAmp_pairs_ne_empty iter hne)
  · rw [append_pair_of_ne h]
    simp only [String.data_append, List.append_assoc]
    refine hmem.trans ?_
    exact ((List.prefix_append _ _).isInfix).trans (List.suffix_append _ _).isInfix

set_option maxRecDepth 100000 in
/-- C4 counterexample: the form-urlencoded serializer encodes the space in
the free-text query as `+`, not `%20`, so the built URL never contains
`q=repo%3Afoo%2Fbar%20is%3Aopen`; shown at the insertion-order iteration
of the options map built by `sort(Comments).order(Desc).per_page(50)`. -/
theorem search_uri_not_percent20 :
    search_uri [("sort", "comments"), ("order", "desc"), ("per_page", "50")]
        "repo:foo/bar is:open" =
      "/search/issues?sort=comments&order=desc&per_page=50&q=repo%3Afoo%2Fbar+is%3Aopen" ∧
    ¬ (("q=repo%3Afoo%2Fbar%20is%3Aopen" : String).data <:+:
        (search_uri [("sort", "comments"), ("order", "desc"), ("per_page", "50")]
          "repo:foo/bar is:open").data) := by
  exact ⟨by decide, by decide⟩

/-- C4 (amended): under every iteration order of the options map built by
`sort(Comments).order(Desc).per_page(50)`, the URL built by
`SearchIssues::iter("repo:foo/bar is:open", options)` contains
`sort=comments`, `order=desc` and `per_page=50`, and ends with
`q=repo%3Afoo%2Fbar+is%3Aopen` — the free-text query percent-encoded with
the space as `+` (not `%20`) and appended after the serialized options. -/
theorem search_uri_pinned_options (iter : List (String × String))
    (hi : iter.Perm (buildParams
      [BuilderCall.sort IssuesSort.Comments, BuilderCall.order SortDirection.Desc,
       BuilderCall.per_page 50])) :
    (("sort=comments" : String).data <:+:
      (search_uri iter "repo:foo/bar is:open").data) ∧
    (("order=desc" : String).data <:+:
      (search_uri iter "repo:foo/bar is:open").data) ∧
    (("per_page=50" : String).data <:+:
      (search_uri iter "repo:foo/bar is:open").data) ∧
    (("q=repo%3Afoo%2Fbar+is%3Aopen" : String).data <:+
      (search_uri iter "repo:foo/bar is:open").data) := by
  have h1 : ("sort", "comments") ∈ iter := hi.mem_iff.mpr (by decide)
  have h2 : ("order", "desc") ∈ iter := hi.mem_iff.mpr (by decide)
  have h3 : ("per_page", "50") ∈ iter := hi.mem_iff.mpr (by decide)
  refine ⟨?_, ?_, ?_, ?_⟩
  · have h := pair_infix_search_uri iter "repo:foo/bar is:open" _ h1
    rwa [show pairStr ("sort", "comments") = "sort=comments" from by decide] at h
  · have h := pair_infix_search_uri iter "repo:foo/bar is:open" _ h2
    rwa [show pairStr ("order", "desc") = "order=desc" from by decide] at h
  · have h := pair_infix_search_uri iter "repo:foo/bar is:open" _ h3
    rwa [show pairStr ("per_page", "50") = "per_page=50" from by decide] at h
  · have h := q_pair_suffix_search_uri iter "repo:foo/bar is:open"
    rwa [show ("q=" ++ formUrlEncode "repo:foo/bar is:open") =
      "q=repo%3Afoo%2Fbar+is%3Aopen" from by decide] at h

/-- Witness for C4's amended theorem at the insertion-order iteration of the
options map. -/
theorem search_uri_pinned_options_witness :
    (([("sort", "comments"), ("order", "desc"), ("per_page", "50")] :
        List (String × String)).Perm
      (buildParams [BuilderCall.sort IssuesSort.Comments,
        BuilderCall.order SortDirection.Desc, BuilderCall.per_page 50])) ∧
    ((("sort=comments" : String).data <:+:
      (search_uri [("sort", "comments"), ("order", "desc"), ("per_page", "50")]
        "repo:foo/bar is:open").data) ∧
    (("order=desc" : String).data <:+:
      (search_uri [("sort", "comments"), ("order", "desc"), ("per_page", "50")]
        "repo:foo/bar is:open").data) ∧
    (("per_page=50" : String).data <:+:
      (search_uri [("sort", "comments"), ("order", "desc"), ("per_page", "50")]
        "repo:foo/bar is:open").data) ∧
    (("q=repo%3Afoo%2Fbar+is%3Aopen" : String).data <:+
      (search_uri [("sort", "comments"), ("order", "desc"), ("per_page", "50")]
        "repo:foo/bar is:open").data)) :=
  ⟨by decide, search_uri_pinned_options _ (by decide)⟩

/-- C8: for every free-text query `q` (even empty) and every iteration order
of every options map (even empty), `search_uri` produces
`/search/issues?` followed by a query string, and the query string always
carries the key `q` — the encoded `q=…` pair is a suffix of the URL. -/
theorem search_uri_always_has_q (iter : List (String × String)) (q : String) :
    search_uri iter q =
      "/search/issues?" ++ append_pair ((serialize iter).getD "") "q" q ∧
    ("q=" ++ formUrlEncode q).data <:+ (search_uri iter q).data :=
  ⟨search_uri_structure iter q, q_pair_suffix_search_uri iter q⟩

/-! ### Pagination engine -/

theorem runUnfold_ok (D I E : Type) (extract : SearchResult D → List I)
    (ps : List (SearchResult D)) (i : Nat) :
    @runUnfold D I E extract (ps.map Except.ok) i =
      ((ps.flatMap extract).map StreamElem.item, List.range' i ps.length) := by
  induction ps generalizing i with
  | nil => simp [runUnfold]
  | cons p rest ih =>
      simp [runUnfold, ih, List.range']

theorem runUnfold_fail (D I E : Type) (extract : SearchResult D → List I)
    (oks : List (SearchResult D)) (e : E) (rest : List (Except E (SearchResult D)))
    (i : Nat) :
    @runUnfold D I E extract (oks.map Except.ok ++ Except.error e :: rest) i =
      ((oks.flatMap extract).map StreamElem.item ++ [StreamElem.failure e],
        List.range' i (oks.length + 1)) := by
  induction oks generalizing i with
  | nil => simp [runUnfold, List.range']
  | cons p t ih =>
      simp [runUnfold, ih, List.range']

/-- C6: fully consuming the stream the pagination engine builds from a source
whose pages all succeed (with `items` as the extraction function, as in
`Search::iter`) yields exactly the concatenation of every page's items — so
`k1+…+kn` items in page order and within-page order — and fetches each of
the `n` pages exactly once, in order. -/
theorem unfold_yields_all_items (D E : Type) (ps : List (SearchResult D)) :
    (@runUnfold D D E items (ps.map Except.ok) 0).1 =
      (ps.flatMap items).map StreamElem.item ∧
    (@runUnfold D D E items (ps.map Except.ok) 0).1.length =
      (ps.map (fun p => p.items.length)).sum ∧
    (@runUnfold D D E items (ps.map Except.ok) 0).2 = List.range ps.length ∧
    (@runUnfold D D E items (ps.map Except.ok) 0).2.Nodup := by
  have h := runUnfold_ok D D E items ps 0
  rw [h]
  refine ⟨rfl, ?_, ?_, ?_⟩
  · simp [items, Function.comp_def]
  · simp [List.range_eq_range']
  · rw [show List.range' 0 ps.length = List.range ps.length from
      (List.range_eq_range' ps.length).symm]
    exact List.nodup_range ps.length

/-- C7: if the fetch of a page fails, the stream yields all items of the
preceding pages, then exactly one failure element as its terminal element,
and ends: the failed page is fetched exactly once (no retry), and no page
past it — in particular not the one after — is ever fetched, regardless of
what the source would have yielded next. -/
theorem unfold_failure_terminal (D E : Type) (oks : List (SearchResult D)) (e : E)
    (rest : List (Except E (SearchResult D))) :
    (@runUnfold D D E items (oks.map Except.ok ++ Except.error e :: rest) 0).1 =
      (oks.flatMap items).map StreamElem.item ++ [StreamElem.failure e] ∧
    (@runUnfold D D E items (oks.map Except.ok ++ Except.error e :: rest) 0).2 =
      List.range (oks.length + 1) ∧
    (List.range (oks.length + 1)).Nodup ∧
    oks.length + 1 ∉ List.range (oks.length + 1) := by
  have h := runUnfold_fail D D E items oks e rest 0
  rw [h]
  refine ⟨rfl, ?_, List.nodup_range _, by simp⟩
  simp [List.range_eq_range']

/-- C5: `Labels::update(prevname, options)` issues a PATCH whose path is
`/repos/{owner}/{repo}/labels/{prevname}` — the old name — and whose body
carries the new name and color from `options`; the old name is never
assumed equal to the new one (path and body vary independently). -/
theorem labels_update_semantics (owner repo prevname : String) (lab : LabelOptions) :
    (Labels.update ⟨owner, repo⟩ prevname lab).method = Method.PATCH ∧
    (Labels.update ⟨owner, repo⟩ prevname lab).path =
      "/repos/" ++ owner ++ "/" ++ repo ++ "/labels/" ++ prevname ∧
    (Labels.update ⟨owner, repo⟩ prevname lab).body = some lab := by
  refine ⟨rfl, ?_, rfl⟩
  apply string_eq_of_data
  simp [Labels.update, Labels.path, String.data_append]

/-- C9: the `Labels` accessor builds paths by direct interpolation with no
percent-encoding: `create`/`list` use exactly `/repos/{owner}/{repo}/labels`
and `update`/`delete` append `/{name}` verbatim, so a name containing `/`
or other reserved characters lands in the path unescaped. -/
theorem labels_paths_verbatim (owner repo name : String) (lab : LabelOptions) :
    (Labels.create ⟨owner, repo⟩ lab).path = "/repos/" ++ owner ++ "/" ++ repo ++ "/labels" ∧
    (Labels.list ⟨owner, repo⟩).path = "/repos/" ++ owner ++ "/" ++ repo ++ "/labels" ∧
    (Labels.delete ⟨owner, repo⟩ name).path =
      "/repos/" ++ owner ++ "/" ++ repo ++ "/labels/" ++ name ∧
    (Labels.update ⟨owner, repo⟩ name lab).path =
      "/repos/" ++ owner ++ "/" ++ repo ++ "/labels/" ++ name ∧
    (Labels.delete ⟨"o", "r"⟩ "a/b").path = "/repos/o/r/labels/a/b" := by
    refine ⟨?_, ?_, ?_, ?_, by decide⟩ <;>
      (apply string_eq_of_data;
       simp [Labels.create, Labels.list, Labels.delete, Labels.update, Labels.path,
         String.data_append])

/-- C10: `IssuesItem::repo_tuple` is partial: it returns no value (panics)
unless `repository_url` parses as a valid URL whose path, split on `/`, has
at least two components; on success it returns the first two components of
that split as the `(owner, repo)` pair. -/
theorem repo_tuple_spec (pp : Option String) :
    (repo_tuple pp = none ↔
      pp = none ∨ ∃ p, pp = some p ∧ (splitPath p).length < 2) ∧
    (∀ p, pp = some p → ∀ h : 1 < (splitPath p).length,
      repo_tuple pp = some
        ((splitPath p).get ⟨0, Nat.lt_of_le_of_lt (Nat.zero_le 1) h⟩,
         (splitPath p).get ⟨1, h⟩)) := by
  constructor
  · cases pp with
    | none => simp [repo_tuple]
    | some p =>
        simp only [repo_tuple, Option.some.injEq, reduceCtorEq, false_or]
        by_cases h : 1 < (p.splitOn "/").length
        · simp [h, Nat.lt_irrefl]
          omega
        · simp [h]
          omega
  · intro p hp h
    subst hp
    simp [repo_tuple, h]

/-- Witness for C10 at concrete inputs: an unparsable URL and a path with a
single component fail; `/repos/foo/bar` splits as
`["", "repos", "foo", "bar"]`, whose first two components are `""` and
`"repos"`. -/
theorem repo_tuple_spec_witness :
    repo_tuple none = none ∧
    repo_tuple (some "a") = none ∧
    repo_tuple (some "/repos/foo/bar") = some ("", "repos") := by
  refine ⟨?_, ?_, ?_⟩
  · exact (repo_tuple_spec none).1.mpr (Or.inl rfl)
  · exact (repo_tuple_spec (some "a")).1.mpr (Or.inr ⟨"a", rfl, by decide⟩)
  · have h := (repo_tuple_spec (some "/repos/foo/bar")).2 "/repos/foo/bar" rfl (by decide)
    rw [h]
    decide

end Hubcaps
